import Mathlib

/-!
Verification development for a read-only git object store and history walker.

The walker (`walkHistoryLoop`, `simplifyRoots`, `skipEqualCommits`,
`mergeRoots`, `extractNewestCommit`) and the predicate combinators
(`makePager`, `makePathComparator`) are shallowly embedded from the Go
source; the pack-index reader (`readIdxFile`) and the header/base-resolution
phase of the pack reader (`readObjectBytes`) are embedded from
`repo_utils.go`.  Go machine integers are modelled as `Nat` bit patterns
with explicit reduction modulo `2 ^ 64` where overflow matters; fallible Go
functions return `Except`/`Option`; a Go runtime panic (out-of-range index,
nil dereference) and `log.Fatal` are modelled as explicit outcomes.
Loops whose termination is not structural receive explicit fuel; exhausted
fuel is reported as a distinct outcome and never conflated with normal
returns.
-/

namespace GitCore

/-- Commit ids: the walker only ever compares them for equality and stores
them in a set, so the 20-byte `sha1` is modelled as an opaque `Nat` key. -/
abbrev Sha1 := Nat

/-- `Commit` is supplied by a collaborator (spec section 6): the walker uses
`Id`, `Committer.When` (modelled as an integer instant, `After` = `>`),
`ParentCount`/`Parent(i)` (modelled as the parent list) only.  Commits form
a DAG by construction, hence an inductive type. -/
inductive Commit where
  | mk : Sha1 → Int → List Commit → Commit

/-- `commit.Id`. -/
def Commit.Id : Commit → Sha1
  | .mk i _ _ => i

/-- `commit.Committer.When`, as an integer instant. -/
def Commit.when : Commit → Int
  | .mk _ w _ => w

/-- `commit.parents` (also `ParentCount`/`Parent(i)`; the collaborator's
parent fetch is modelled as already materialized, so it cannot fail). -/
def Commit.parents : Commit → List Commit
  | .mk _ _ ps => ps

/-- `time.Time.After`: strict `>`. -/
def timeAfter (a b : Int) : Bool := b < a

/-- `HWDrop = 0`. -/
def HWDrop : Nat := 0

/-- `HWTakeCommit = 1 << 1`. -/
def HWTakeCommit : Nat := 2

/-- `HWFollowParents = 1 << 2`. -/
def HWFollowParents : Nat := 4

/-- `HWStop = 1 << 3`. -/
def HWStop : Nat := 8

/-- `HWTakeAndFollow = HWTakeCommit | HWFollowParents`. -/
def HWTakeAndFollow : Nat := HWTakeCommit ||| HWFollowParents

/-- Go's `a &^ b` (and-not) on 64-bit integers, for the small non-negative
bit patterns used by walker actions. -/
def andNotGo (a b : Nat) : Nat := a &&& (b ^^^ (2 ^ 64 - 1))

/-- First parent `p` of `commit` (scanning `Parent(0), Parent(1), …`) with
`eq commit p`; the inner loop of `skipEqualCommits`. -/
def findEqParent (eq : Commit → Commit → Bool) (c : Commit) :
    List Commit → Option Commit
  | [] => none
  | p :: ps => if eq c p then some p else findEqParent eq c ps

/-- `skipEqualCommits`: repeatedly replace a commit by its first equivalent
parent, recording skipped ids in `seen`; a commit whose id is in `seen` is
dropped (`none`).  The Go `for` loop follows a parent chain; it is given
explicit fuel, `none` result of the outer `Option` meaning fuel ran out. -/
def skipEqualCommits (eq : Commit → Commit → Bool) :
    Nat → Commit → List Sha1 → Option (Option Commit × List Sha1)
  | 0, _, _ => none
  | fuel + 1, c, seen =>
    if c.Id ∈ seen then some (none, seen)
    else if c.parents.isEmpty then some (some c, seen)
    else
      match findEqParent eq c c.parents with
      | some p => skipEqualCommits eq fuel p (c.Id :: seen)
      | none => some (some c, seen)

/-- `simplifyRoots`: apply `skipEqualCommits` to each frontier element in
order, keeping the non-dropped results. -/
def simplifyRoots (eq : Commit → Commit → Bool) (fuel : Nat) :
    List Commit → List Sha1 → Option (List Commit × List Sha1)
  | [], seen => some ([], seen)
  | c :: cs, seen =>
    match skipEqualCommits eq fuel c seen with
    | none => none
    | some (oc, seen1) =>
      match simplifyRoots eq fuel cs seen1 with
      | none => none
      | some (rest, seen2) =>
        match oc with
        | some c1 => some (c1 :: rest, seen2)
        | none => some (rest, seen2)

/-- Inner loop of `mergeRoots` over the `merging` list: a needle equal to
some member of `base` is dropped and marked seen, otherwise appended. -/
def mergeLoop (base : List Commit) (eq : Commit → Commit → Bool) :
    List Commit → List Commit → List Sha1 → List Commit × List Sha1
  | [], acc, seen => (acc, seen)
  | needle :: rest, acc, seen =>
    if base.any (fun item => eq needle item) then
      mergeLoop base eq rest acc (needle.Id :: seen)
    else
      mergeLoop base eq rest (acc ++ [needle]) seen

/-- `mergeRoots(base, merging, eq, seen)`: `newRoots` starts as a copy of
`base`; each member of `merging` is tested against `base` only. -/
def mergeRoots (base merging : List Commit) (eq : Commit → Commit → Bool)
    (seen : List Sha1) : List Commit × List Sha1 :=
  mergeLoop base eq merging base seen

/-- The `for idx, current := range roots[1:]` loop of `extractNewestCommit`:
`idx` is the index into `roots[1:]`, and the source sets `targetIdx = idx`
(not `idx + 1`) when `current` is newer. -/
def extractLoop : List Commit → Nat → Commit → Nat → Commit × Nat
  | [], _, target, targetIdx => (target, targetIdx)
  | current :: rest, idx, target, targetIdx =>
    if timeAfter current.when target.when then
      extractLoop rest (idx + 1) current idx
    else
      extractLoop rest (idx + 1) target targetIdx

/-- `extractNewestCommit`: pick the newest frontier commit and remove the
element at `targetIdx` via `append(roots[:targetIdx], roots[targetIdx+1:]…)`.
Calling it on an empty slice hits `roots[0]` and panics (`none`). -/
def extractNewestCommit (roots : List Commit) :
    Option (Commit × List Commit) :=
  match roots with
  | [] => none
  | r0 :: rest =>
    if roots.length == 1 then some (r0, [])
    else
      let tg := extractLoop rest 0 r0 0
      some (tg.1, roots.take tg.2 ++ roots.drop (tg.2 + 1))

/-- Transient walker state between two iterations of the main loop; `σ` is
the hidden state of the (closure-valued) callback. -/
structure WalkState (σ : Type) where
  roots : List Commit
  results : List Commit
  seen : List Sha1
  cbState : σ

/-- Outcome of a walk: a normal return of `results`, a propagated callback
error, a runtime panic, or exhausted fuel (the Go loop still running). -/
inductive WalkRes (ε : Type) where
  | ok (results : List Commit)
  | err (e : ε)
  | crash
  | spin

/-- Lines 66–83 of the walker loop body: if `TakeCommit` is set, append the
extracted commit to `results` and mark it seen; if `FollowParents` is set,
merge its parents into the frontier; if `Stop` is set, return the current
results, otherwise continue with the updated state. -/
def applyAction {σ ε : Type} (eq : Commit → Commit → Bool) (action : Nat)
    (next : Commit) (roots2 results : List Commit) (seen1 : List Sha1)
    (cbs1 : σ) : Sum (WalkRes ε) (WalkState σ) :=
  let step1 : List Commit × List Sha1 :=
    if action &&& HWTakeCommit > 0 then
      (results ++ [next], next.Id :: seen1)
    else (results, seen1)
  let step2 : List Commit × List Sha1 :=
    if action &&& HWFollowParents > 0 then
      mergeRoots next.parents roots2 eq step1.2
    else (roots2, step1.2)
  if action &&& HWStop > 0 then .inl (.ok step1.1)
  else .inr ⟨step2.1, step1.1, step2.2, cbs1⟩

/-- One body of the `for` loop of `walkHistoryLoop` (after the emptiness
check): simplify, extract the newest commit, invoke the callback, then
take / follow / stop according to the action bits. -/
def walkIter {σ ε : Type} (cb : σ → Commit → σ × Except ε Nat)
    (eq : Commit → Commit → Bool) (skipFuel : Nat) (st : WalkState σ) :
    Sum (WalkRes ε) (WalkState σ) :=
  match simplifyRoots eq skipFuel st.roots st.seen with
  | none => .inl .spin
  | some (roots1, seen1) =>
    match extractNewestCommit roots1 with
    | none => .inl .crash
    | some (next, roots2) =>
      match cb st.cbState next with
      | (_, .error e) => .inl (.err e)
      | (cbs1, .ok action) =>
        applyAction eq action next roots2 st.results seen1 cbs1

/-- `walkHistoryLoop`, fuelled: iterate `walkIter` until the frontier is
empty, a stop/error/panic occurs, or fuel runs out. -/
def walkHistoryLoop {σ ε : Type} (cb : σ → Commit → σ × Except ε Nat)
    (eq : Commit → Commit → Bool) (skipFuel : Nat) :
    Nat → WalkState σ → WalkRes ε
  | 0, _ => .spin
  | fuel + 1, st =>
    if st.roots.isEmpty then .ok st.results
    else
      match walkIter cb eq skipFuel st with
      | .inl r => r
      | .inr st1 => walkHistoryLoop cb eq skipFuel fuel st1

/-- `walkFilteredHistory(start, callback, eq)`. -/
def walkFilteredHistory {σ ε : Type} (start : Commit)
    (cb : σ → Commit → σ × Except ε Nat) (st0 : σ)
    (eq : Commit → Commit → Bool) (fuel skipFuel : Nat) : WalkRes ε :=
  walkHistoryLoop cb eq skipFuel fuel ⟨[start], [], [], st0⟩

/-- `nopCallback`: unconditional take-and-follow (stateless, never fails). -/
def nopCallback : Unit → Commit → Unit × Except Unit Nat :=
  fun s _ => (s, .ok HWTakeAndFollow)

/-- `nopComparator`: always false, i.e. no history simplification. -/
def nopComparator : Commit → Commit → Bool := fun _ _ => false

/-- An old root commit (id 1, committed at instant 1). -/
def cOldRoot : Commit := Commit.mk 1 1 []

/-- A newer root commit (id 2, committed at instant 2). -/
def cNewRoot : Commit := Commit.mk 2 2 []

/-- A merge commit (id 3, instant 3) whose parents are `cOldRoot` and
`cNewRoot`. -/
def cMerge : Commit := Commit.mk 3 3 [cOldRoot, cNewRoot]

end GitCore

namespace GitCore

theorem skipEqualCommits_seen_mono {eq : Commit → Commit → Bool} :
    ∀ (fuel : Nat) (c : Commit) (seen : List Sha1) {oc : Option Commit}
      {seen1 : List Sha1},
      skipEqualCommits eq fuel c seen = some (oc, seen1) → seen ⊆ seen1 := by
  intro fuel
  induction fuel with
  | zero => intro c seen oc seen1 h; simp [skipEqualCommits] at h
  | succ n ih =>
    intro c seen oc seen1 h
    unfold skipEqualCommits at h
    split at h
    · cases h; exact List.Subset.refl _
    · split at h
      · cases h; exact List.Subset.refl _
      · split at h
        · exact fun x hx => ih _ _ h (List.mem_cons_of_mem _ hx)
        · cases h; exact List.Subset.refl _

theorem skipEqualCommits_ret_not_seen {eq : Commit → Commit → Bool} :
    ∀ (fuel : Nat) (c : Commit) (seen : List Sha1) {c1 : Commit}
      {seen1 : List Sha1},
      skipEqualCommits eq fuel c seen = some (some c1, seen1) →
      c1.Id ∉ seen := by
  intro fuel
  induction fuel with
  | zero => intro c seen c1 seen1 h; simp [skipEqualCommits] at h
  | succ n ih =>
    intro c seen c1 seen1 h
    unfold skipEqualCommits at h
    split at h
    · cases h
    · split at h
      · cases h; assumption
      · split at h
        · intro hmem
          exact ih _ _ h (List.mem_cons_of_mem _ hmem)
        · cases h; assumption

theorem simplifyRoots_seen_mono {eq : Commit → Commit → Bool}
    {fuel : Nat} :
    ∀ (roots : List Commit) (seen : List Sha1) {roots1 : List Commit}
      {seen1 : List Sha1},
      simplifyRoots eq fuel roots seen = some (roots1, seen1) →
      seen ⊆ seen1 := by
  intro roots
  induction roots with
  | nil => intro seen roots1 seen1 h; cases h; exact List.Subset.refl _
  | cons c cs ih =>
    intro seen roots1 seen1 h
    unfold simplifyRoots at h
    split at h
    · cases h
    case _ oc s1 hskip =>
      split at h
      · cases h
      case _ rest s2 hrest =>
        have h1 := skipEqualCommits_seen_mono _ _ _ hskip
        have h2 := ih _ hrest
        split at h <;> (cases h; exact fun x hx => h2 (h1 hx))

theorem simplifyRoots_ret_not_seen {eq : Commit → Commit → Bool}
    {fuel : Nat} :
    ∀ (roots : List Commit) (seen : List Sha1) {roots1 : List Commit}
      {seen1 : List Sha1},
      simplifyRoots eq fuel roots seen = some (roots1, seen1) →
      ∀ c1 ∈ roots1, c1.Id ∉ seen := by
  intro roots
  induction roots with
  | nil => intro seen roots1 seen1 h; cases h; intro c1 hc1; cases hc1
  | cons c cs ih =>
    intro seen roots1 seen1 h
    unfold simplifyRoots at h
    split at h
    · cases h
    case _ oc s1 hskip =>
      split at h
      · cases h
      case _ rest s2 hrest =>
        have hmono := skipEqualCommits_seen_mono _ _ _ hskip
        cases oc with
        | some chead =>
          cases h
          intro c1 hc1
          rcases List.mem_cons.mp hc1 with hc1 | hc1
          · subst hc1; exact skipEqualCommits_ret_not_seen _ _ _ hskip
          · intro hmem; exact ih _ hrest _ hc1 (hmono hmem)
        | none =>
          cases h
          intro c1 hc1 hmem
          exact ih _ hrest _ hc1 (hmono hmem)

theorem extractLoop_mem :
    ∀ (l : List Commit) (idx : Nat) (t : Commit) (ti : Nat),
      (extractLoop l idx t ti).1 = t ∨ (extractLoop l idx t ti).1 ∈ l := by
  intro l
  induction l with
  | nil => intro idx t ti; left; rfl
  | cons c cs ih =>
    intro idx t ti
    unfold extractLoop
    split
    · rcases ih (idx + 1) c idx with h | h
      · right; rw [h]; exact List.mem_cons_self _ _
      · right; exact List.mem_cons_of_mem _ h
    · rcases ih (idx + 1) t ti with h | h
      · left; exact h
      · right; exact List.mem_cons_of_mem _ h

theorem extractNewestCommit_mem {roots : List Commit} {next : Commit}
    {rest : List Commit}
    (h : extractNewestCommit roots = some (next, rest)) : next ∈ roots := by
  unfold extractNewestCommit at h
  match roots, h with
  | r0 :: rs, h =>
    dsimp at h
    split at h
    · cases h; exact List.mem_cons_self _ _
    · cases h
      rcases extractLoop_mem rs 0 r0 0 with h1 | h1
      · rw [h1]; exact List.mem_cons_self _ _
      · exact List.mem_cons_of_mem _ h1

theorem mergeLoop_seen_mono {eq : Commit → Commit → Bool}
    {base : List Commit} :
    ∀ (merging acc : List Commit) (seen : List Sha1),
      seen ⊆ (mergeLoop base eq merging acc seen).2 := by
  intro merging
  induction merging with
  | nil => intro acc seen; exact List.Subset.refl _
  | cons needle rst ih =>
    intro acc seen
    unfold mergeLoop
    split
    · exact fun x hx => ih _ _ (List.mem_cons_of_mem _ hx)
    · exact ih _ _

end GitCore

namespace GitCore

/-- Invariant carried by the walker between iterations: the yielded ids are
pairwise distinct and all recorded in `seen`. -/
def ResultsInv (results : List Commit) (seen : List Sha1) : Prop :=
  (results.map Commit.Id).Nodup ∧ ∀ c ∈ results, c.Id ∈ seen

theorem applyAction_preserves {σ ε : Type} {eq : Commit → Commit → Bool}
    {action : Nat} {next : Commit} {roots2 results : List Commit}
    {seen1 : List Sha1} {cbs1 : σ}
    (hnd : (results.map Commit.Id).Nodup)
    (hsub : ∀ c ∈ results, c.Id ∈ seen1)
    (hfresh : next.Id ∉ results.map Commit.Id) :
    (∀ {l : List Commit},
      applyAction (ε := ε) eq action next roots2 results seen1 cbs1 =
        .inl (.ok l) → (l.map Commit.Id).Nodup) ∧
    (∀ {st1 : WalkState σ},
      applyAction (ε := ε) eq action next roots2 results seen1 cbs1 =
        .inr st1 → ResultsInv st1.results st1.seen) := by
  have hnd1 : ((results ++ [next]).map Commit.Id).Nodup := by
    simp only [List.map_append, List.map_cons, List.map_nil]
    rw [List.nodup_append]
    exact ⟨hnd, List.nodup_singleton _,
      fun x hx hx2 => by
        simp only [List.mem_singleton] at hx2
        exact hfresh (hx2 ▸ hx)⟩
  unfold applyAction
  by_cases htake : action &&& HWTakeCommit > 0 <;>
    by_cases hfol : action &&& HWFollowParents > 0 <;>
      by_cases hstop : action &&& HWStop > 0 <;>
        simp only [htake, hfol, hstop, if_pos, if_neg, if_true, if_false,
          not_true, not_false_iff, ite_true, ite_false]
  all_goals constructor
  all_goals intro x h
  all_goals first
    | (cases h
       first
        | exact hnd1
        | exact hnd
        | skip)
  all_goals unfold ResultsInv
  all_goals simp only []
  · exact ⟨hnd1, fun c hc => mergeLoop_seen_mono _ _ _
      (by
        rcases List.mem_append.mp hc with hc | hc
        · exact List.mem_cons_of_mem _ (hsub c hc)
        · simp only [List.mem_singleton] at hc
          subst hc; exact List.mem_cons_self _ _)⟩
  · exact ⟨hnd1, fun c hc => by
      rcases List.mem_append.mp hc with hc | hc
      · exact List.mem_cons_of_mem _ (hsub c hc)
      · simp only [List.mem_singleton] at hc
        subst hc; exact List.mem_cons_self _ _⟩
  · exact ⟨hnd, fun c hc => mergeLoop_seen_mono _ _ _ (hsub c hc)⟩
  · exact ⟨hnd, hsub⟩

end GitCore

namespace GitCore

theorem walkIter_preserves {σ ε : Type} {cb : σ → Commit → σ × Except ε Nat}
    {eq : Commit → Commit → Bool} {skipFuel : Nat} {st : WalkState σ}
    (hinv : ResultsInv st.results st.seen) :
    (∀ {l : List Commit}, walkIter cb eq skipFuel st = .inl (.ok l) →
      (l.map Commit.Id).Nodup) ∧
    (∀ {st1 : WalkState σ}, walkIter cb eq skipFuel st = .inr st1 →
      ResultsInv st1.results st1.seen) := by
  obtain ⟨hnd, hsub⟩ := hinv
  unfold walkIter
  split
  · exact ⟨(by intro l h; cases h), (by intro st1 h; cases h)⟩
  case _ roots1 seen1 hsimp =>
    split
    · exact ⟨(by intro l h; cases h), (by intro st1 h; cases h)⟩
    case _ next roots2 hext =>
      have hnextmem := extractNewestCommit_mem hext
      have hnextid : next.Id ∉ st.seen :=
        simplifyRoots_ret_not_seen _ _ hsimp _ hnextmem
      have hmono : st.seen ⊆ seen1 := simplifyRoots_seen_mono _ _ hsimp
      have hsub1 : ∀ c ∈ st.results, c.Id ∈ seen1 :=
        fun c hc => hmono (hsub c hc)
      have hfresh : next.Id ∉ st.results.map Commit.Id := by
        intro hmem
        rcases List.mem_map.mp hmem with ⟨c, hc, hcid⟩
        exact hnextid (hcid ▸ hsub c hc)
      rcases hcb : cb st.cbState next with ⟨cbs1, cres⟩
      cases cres with
      | error e => exact ⟨(by intro l h; cases h), (by intro st1 h; cases h)⟩
      | ok action => exact applyAction_preserves hnd hsub1 hfresh

theorem walkHistoryLoop_ok_nodup {σ ε : Type}
    {cb : σ → Commit → σ × Except ε Nat} {eq : Commit → Commit → Bool}
    {skipFuel : Nat} :
    ∀ (fuel : Nat) (st : WalkState σ), ResultsInv st.results st.seen →
      ∀ {l : List Commit}, walkHistoryLoop cb eq skipFuel fuel st = .ok l →
        (l.map Commit.Id).Nodup := by
  intro fuel
  induction fuel with
  | zero => intro st hinv l h; cases h
  | succ n ih =>
    intro st hinv l h
    unfold walkHistoryLoop at h
    split at h
    · cases h; exact hinv.1
    · split at h
      case _ r hit =>
        subst h
        exact (walkIter_preserves hinv).1 hit
      case _ st1 hit =>
        exact ih st1 ((walkIter_preserves hinv).2 hit) h

/-- C5: for every frontier of start commits, every (stateful, fallible)
callback, and every comparator, a result list actually returned by
`walkHistoryLoop` contains no commit id twice.  (On a callback error, a
panic, or exhausted fuel no result list is returned, so the claim is about
the `.ok` outcome.) -/
theorem walkHistoryLoop_results_unique {σ ε : Type}
    (cb : σ → Commit → σ × Except ε Nat) (eq : Commit → Commit → Bool)
    (skipFuel fuel : Nat) (roots : List Commit) (st0 : σ) {l : List Commit}
    (h : walkHistoryLoop cb eq skipFuel fuel ⟨roots, [], [], st0⟩ = .ok l) :
    (l.map Commit.Id).Nodup :=
  walkHistoryLoop_ok_nodup fuel ⟨roots, [], [], st0⟩
    (by simp [ResultsInv]) h

/-- Witness for C5: a two-commit chain walked with take-and-follow returns
both commits, and the theorem yields distinctness of their ids. -/
theorem walkHistoryLoop_results_unique_witness :
    (List.map Commit.Id
      [Commit.mk 5 2 [Commit.mk 6 1 []], Commit.mk 6 1 []]).Nodup :=
  walkHistoryLoop_results_unique nopCallback nopComparator 3 5
    [Commit.mk 5 2 [Commit.mk 6 1 []]] () rfl

end GitCore

namespace GitCore

/-- C1 (code bug, `extractNewestCommit` lines 185–203): on the frontier
`[cOldRoot, cNewRoot]` the function picks the newest commit `cNewRoot`
(maximal `Committer.When`, ties by first occurrence), but because the loop
stores `targetIdx = idx` instead of `idx + 1`, it removes `cOldRoot` and
retains the picked commit: the returned frontier is `[cNewRoot]`, not
`[cOldRoot]` as the claim requires. -/
theorem extractNewestCommit_removes_wrong_element :
    timeAfter cNewRoot.when cOldRoot.when = true ∧
    extractNewestCommit [cOldRoot, cNewRoot] = some (cNewRoot, [cNewRoot]) :=
  ⟨rfl, rfl⟩

/-- C2 (code bug): walking `cMerge` (parents `cOldRoot`, `cNewRoot`) with an
always-TakeAndFollow visitor and an always-false comparator does not return
the reachable set in timestamp-descending order; after taking `cMerge` and
`cNewRoot` the walker panics with an index-out-of-range in
`extractNewestCommit` (the off-by-one removal left the already-seen
`cNewRoot` in the frontier, which then simplifies to empty), and `cOldRoot`
is never visited. -/
theorem walkFilteredHistory_take_and_follow_crashes :
    walkFilteredHistory cMerge nopCallback () nopComparator 10 5 =
      .crash := rfl

/-- The left parent (id 11) used in the C6 counterexample. -/
def pLeft : Commit := Commit.mk 11 1 []

/-- The right parent (id 12), equivalent to `pLeft` under `eqParents`. -/
def pRight : Commit := Commit.mk 12 1 []

/-- A merge commit (id 10) whose two parents are `pLeft` and `pRight`. -/
def mTwoEq : Commit := Commit.mk 10 2 [pLeft, pRight]

/-- A comparator that declares `pLeft` and `pRight` equivalent and nothing
else. -/
def eqParents : Commit → Commit → Bool := fun a b =>
  (a.Id == 11 && b.Id == 12) || (a.Id == 12 && b.Id == 11)

/-- C6 counterexample: after the first iteration of the main loop on start
commit `mTwoEq`, the frontier handed to the next iteration is
`[pLeft, pRight]` although `eqParents pLeft pRight = true` — `mergeRoots`
never compares the new parents against each other, so the frontier at the
start of an iteration is not pairwise non-equivalent for every comparator. -/
theorem frontier_not_pairwise_noneq :
    walkIter nopCallback eqParents 3 ⟨[mTwoEq], [], [], ()⟩ =
      .inr ⟨[pLeft, pRight], [mTwoEq], [10], ()⟩ ∧
    eqParents pLeft pRight = true :=
  ⟨rfl, rfl⟩

theorem mergeLoop_mem {base : List Commit} {eq : Commit → Commit → Bool} :
    ∀ (merging acc : List Commit) (seen : List Sha1),
      ∀ c ∈ (mergeLoop base eq merging acc seen).1,
        c ∈ acc ∨ (c ∈ merging ∧ ∀ b ∈ base, eq c b = false) := by
  intro merging
  induction merging with
  | nil => intro acc seen c hc; exact Or.inl hc
  | cons needle rest ih =>
    intro acc seen c hc
    unfold mergeLoop at hc
    split at hc
    · rcases ih _ _ _ hc with h | ⟨h1, h2⟩
      · exact Or.inl h
      · exact Or.inr ⟨List.mem_cons_of_mem _ h1, h2⟩
    case _ hfound =>
      rcases ih _ _ _ hc with h | ⟨h1, h2⟩
      · rcases List.mem_append.mp h with h | h
        · exact Or.inl h
        · simp only [List.mem_singleton] at h
          subst h
          refine Or.inr ⟨List.mem_cons_self _ _, ?_⟩
          intro b hb
          simp only [List.any_eq_true, not_exists, not_and] at hfound
          have := hfound b hb
          simp only [Bool.not_eq_true] at this
          exact this
      · exact Or.inr ⟨List.mem_cons_of_mem _ h1, h2⟩

/-- C6 amended: what `mergeRoots` actually guarantees — every element of the
merged frontier is either one of the new parents (`base`, copied verbatim)
or an old frontier element that is non-equivalent to every new parent;
retained old elements are tested against `base` only, so the frontier as a
whole need not be pairwise non-equivalent. -/
theorem mergeRoots_retained_noneq (base merging : List Commit)
    (eq : Commit → Commit → Bool) (seen : List Sha1) :
    ∀ c ∈ (mergeRoots base merging eq seen).1,
      c ∈ base ∨ (c ∈ merging ∧ ∀ b ∈ base, eq c b = false) :=
  fun c hc => mergeLoop_mem merging base seen c hc

/-- Witness for the amended C6 theorem: merging `[cNewRoot]` into base
`[cOldRoot]` under the always-false comparator retains `cNewRoot`, which is
non-equivalent to the base element. -/
theorem mergeRoots_retained_noneq_witness :
    cNewRoot ∈ [cOldRoot] ∨
      (cNewRoot ∈ [cNewRoot] ∧
        ∀ b ∈ [cOldRoot], nopComparator cNewRoot b = false) :=
  mergeRoots_retained_noneq [cOldRoot] [cNewRoot] nopComparator [] cNewRoot
    (List.Mem.tail _ (List.Mem.head _))

end GitCore

namespace GitCore

/-- Errors of the collaborator's tree-entry lookup: the `ErrNotExist`
sentinel or any other (non-nil) error value. -/
inductive LookupErr where
  | notExist
  | other (code : Nat)
deriving DecidableEq

/-- A tree entry; the comparator only uses its object id (`Equal` is id
equality). -/
structure TreeEntry where
  Id : Sha1
deriving DecidableEq

/-- `makePathComparator(path)`: `GetTreeEntryByPath` is supplied by the
collaborator, so it is a parameter.  Mirrors the source: if either lookup
errs, the result is `cerr == ErrNotExist && perr == ErrNotExist` (a nil
error never equals the sentinel, hence the mixed arms are `false`);
otherwise the entry ids are compared. -/
def makePathComparator
    (lookup : Commit → String → Except LookupErr TreeEntry) (path : String) :
    Commit → Commit → Bool := fun current parent =>
  match lookup current path, lookup parent path with
  | .ok centry, .ok pentry => centry.Id == pentry.Id
  | .error cerr, .error perr =>
      cerr == LookupErr.notExist && perr == LookupErr.notExist
  | .error _, .ok _ => false
  | .ok _, .error _ => false

/-- C9: the comparator built by `makePathComparator` answers `true` exactly
when both lookups succeed with equal entry ids or both fail with
`ErrNotExist`; a lookup failing with any other error makes the commits
non-equivalent, and no error is ever propagated (the comparator's type has
no error channel — the walker only ever sees the boolean). -/
theorem makePathComparator_spec
    (lookup : Commit → String → Except LookupErr TreeEntry) (path : String)
    (c p : Commit) :
    makePathComparator lookup path c p = true ↔
      ((∃ ce pe, lookup c path = .ok ce ∧ lookup p path = .ok pe ∧
          ce.Id = pe.Id) ∨
        (lookup c path = .error .notExist ∧
          lookup p path = .error .notExist)) := by
  unfold makePathComparator
  rcases hc : lookup c path with ce | ce <;>
    rcases hp : lookup p path with pe | pe <;>
      (cases ce <;> cases pe <;> simp)

end GitCore

namespace GitCore

/-- Mutable closure state of a `makePager` callback: the remaining `skip`
and `count` (Go `int`s). -/
structure PagerState where
  skip : Int
  count : Int

/-- One invocation of the callback returned by `makePager` on a commit for
which the underlying callback produced action `a` (underlying errors just
propagate and abort the walk with no results, so the law is stated for the
non-error trace): if the underlying callback does not take, pass through;
while `skip ≠ 0`, strip `TakeCommit`; while `count ≠ 0`, let through and set
`Stop` on the last one; afterwards, plain `HWStop`. -/
def pagerStep (a : Nat) (s : PagerState) : Nat × PagerState :=
  if a &&& HWTakeCommit = 0 then (a, s)
  else if s.skip ≠ 0 then (andNotGo a HWTakeCommit, ⟨s.skip - 1, s.count⟩)
  else if s.count ≠ 0 then
    (if s.count - 1 = 0 then a ||| HWStop else a, ⟨s.skip, s.count - 1⟩)
  else (HWStop, s)

/-- The actions the walker receives when the pager-wrapped callback is
invoked on successive commits: the walk ends with the first action that has
`Stop` set (included in the trace). -/
def pagerTrace (cb : Commit → Nat) (s : PagerState) :
    List Commit → List Nat
  | [] => []
  | c :: cs =>
    let r := pagerStep (cb c) s
    if r.1 &&& HWStop > 0 then [r.1] else r.1 :: pagerTrace cb r.2 cs

/-- The pager trace paired with the underlying callback's action at each
visited commit. -/
def pagerZip (cb : Commit → Nat) (s : PagerState) :
    List Commit → List (Nat × Nat)
  | [] => []
  | c :: cs =>
    let r := pagerStep (cb c) s
    if r.1 &&& HWStop > 0 then [(cb c, r.1)]
    else (cb c, r.1) :: pagerZip cb r.2 cs

/-- The trace of the underlying callback alone (the same walk without the
pager): ends with its first `Stop` action. -/
def cbTrace (cb : Commit → Nat) : List Commit → List Nat
  | [] => []
  | c :: cs =>
    if cb c &&& HWStop > 0 then [cb c] else cb c :: cbTrace cb cs

/-- Number of actions with `TakeCommit` set, i.e. the number of commits the
walker appends to its results along the trace. -/
def takeCount (l : List Nat) : Nat :=
  l.countP (fun a => decide (0 < a &&& HWTakeCommit))

theorem and_pow_pos_iff (a i : Nat) : 0 < a &&& 2 ^ i ↔ a.testBit i := by
  rw [Nat.and_two_pow]
  cases h : a.testBit i <;> simp [h]

theorem take_of_or_stop (a : Nat) :
    0 < (a ||| HWStop) &&& HWTakeCommit ↔ 0 < a &&& HWTakeCommit := by
  have h2 : HWTakeCommit = 2 ^ 1 := rfl
  rw [h2, and_pow_pos_iff, and_pow_pos_iff, Nat.testBit_lor]
  have h8 : HWStop.testBit 1 = false := by decide
  rw [h8]
  simp

theorem stop_of_or_stop (a : Nat) : 0 < (a ||| HWStop) &&& HWStop := by
  have h2 : (0 : Nat) < (a ||| HWStop) &&& HWStop ↔
      (a ||| HWStop).testBit 3 := and_pow_pos_iff _ 3
  rw [h2, Nat.testBit_lor]
  have h8 : HWStop.testBit 3 = true := by decide
  rw [h8]
  simp

theorem strip_take_no_take (a : Nat) :
    andNotGo a HWTakeCommit &&& HWTakeCommit = 0 := by
  have h1 : andNotGo a HWTakeCommit &&& HWTakeCommit =
      (andNotGo a HWTakeCommit &&& 2 ^ 1) := rfl
  rw [h1, Nat.and_two_pow]
  unfold andNotGo
  rw [Nat.testBit_land]
  have hm : (HWTakeCommit ^^^ (2 ^ 64 - 1)).testBit 1 = false := by decide
  rw [hm]
  simp

theorem strip_take_stop (a : Nat) :
    0 < andNotGo a HWTakeCommit &&& HWStop ↔ 0 < a &&& HWStop := by
  have h1 : (0 : Nat) < andNotGo a HWTakeCommit &&& HWStop ↔
      (andNotGo a HWTakeCommit).testBit 3 := and_pow_pos_iff _ 3
  have h2 : (0 : Nat) < a &&& HWStop ↔ a.testBit 3 := and_pow_pos_iff _ 3
  rw [h1, h2]
  unfold andNotGo
  rw [Nat.testBit_land]
  have hm : (HWTakeCommit ^^^ (2 ^ 64 - 1)).testBit 3 = true := by decide
  rw [hm]
  simp

end GitCore

namespace GitCore

theorem pagerTrace_cons (cb : Commit → Nat) (s : PagerState) (c : Commit)
    (cs : List Commit) :
    pagerTrace cb s (c :: cs) =
      if (pagerStep (cb c) s).1 &&& HWStop > 0 then [(pagerStep (cb c) s).1]
      else (pagerStep (cb c) s).1 ::
        pagerTrace cb (pagerStep (cb c) s).2 cs := rfl

theorem pagerZip_cons (cb : Commit → Nat) (s : PagerState) (c : Commit)
    (cs : List Commit) :
    pagerZip cb s (c :: cs) =
      if (pagerStep (cb c) s).1 &&& HWStop > 0 then
        [(cb c, (pagerStep (cb c) s).1)]
      else (cb c, (pagerStep (cb c) s).1) ::
        pagerZip cb (pagerStep (cb c) s).2 cs := rfl

theorem cbTrace_cons (cb : Commit → Nat) (c : Commit) (cs : List Commit) :
    cbTrace cb (c :: cs) =
      if cb c &&& HWStop > 0 then [cb c] else cb c :: cbTrace cb cs := rfl

theorem pagerStep_no_take {a : Nat} (s : PagerState)
    (h : a &&& HWTakeCommit = 0) : pagerStep a s = (a, s) := by
  simp [pagerStep, h]

theorem pagerStep_skip {a : Nat} {s : PagerState}
    (h : ¬a &&& HWTakeCommit = 0) (hs : s.skip ≠ 0) :
    pagerStep a s = (andNotGo a HWTakeCommit, ⟨s.skip - 1, s.count⟩) := by
  simp [pagerStep, h, hs]

theorem pagerStep_count {a : Nat} {s : PagerState}
    (h : ¬a &&& HWTakeCommit = 0) (hs : s.skip = 0) (hc : s.count ≠ 0) :
    pagerStep a s =
      (if s.count - 1 = 0 then a ||| HWStop else a, ⟨s.skip, s.count - 1⟩) := by
  simp [pagerStep, h, hs, hc]

theorem pagerStep_exhausted {a : Nat} {s : PagerState}
    (h : ¬a &&& HWTakeCommit = 0) (hs : s.skip = 0) (hc : s.count = 0) :
    pagerStep a s = (HWStop, s) := by
  simp [pagerStep, h, hs, hc]

theorem takeCount_nil : takeCount [] = 0 := rfl

theorem takeCount_cons (a : Nat) (l : List Nat) :
    takeCount (a :: l) =
      takeCount l + (if 0 < a &&& HWTakeCommit then 1 else 0) := by
  simp [takeCount, List.countP_cons]

/-- Part (a) of the pager law: with `skip = 0` and `count = n > 0`, the
number of actions carrying `TakeCommit` in the pager trace is
`min n (takes of the underlying callback on the same walk)`. -/
theorem pager_count_min (cb : Commit → Nat) :
    ∀ (cs : List Commit) (n : Nat), 0 < n →
      takeCount (pagerTrace cb ⟨0, (n : Int)⟩ cs) =
        min n (takeCount (cbTrace cb cs)) := by
  intro cs
  induction cs with
  | nil => intro n hn; simp [pagerTrace, cbTrace, takeCount]
  | cons c cs ih =>
    intro n hn
    rw [pagerTrace_cons, cbTrace_cons]
    by_cases htake : cb c &&& HWTakeCommit = 0
    · have h0 : ¬0 < cb c &&& HWTakeCommit := by omega
      rw [pagerStep_no_take _ htake]
      dsimp only
      by_cases hstop : 0 < cb c &&& HWStop
      · rw [if_pos hstop, if_pos hstop]
        rw [takeCount_cons, takeCount_nil, if_neg h0]
        omega
      · rw [if_neg hstop, if_neg hstop]
        rw [takeCount_cons, takeCount_cons, ih n hn, if_neg h0]
        omega
    · have htk : 0 < cb c &&& HWTakeCommit := by omega
      rw [pagerStep_count htake rfl (by dsimp only; omega)]
      dsimp only
      by_cases hn1 : n = 1
      · subst hn1
        rw [if_pos (show ((1 : Nat) : Int) - 1 = 0 by omega)]
        rw [if_pos (stop_of_or_stop (cb c))]
        rw [takeCount_cons, takeCount_nil,
          if_pos ((take_of_or_stop _).mpr htk)]
        by_cases hstop : 0 < cb c &&& HWStop
        · rw [if_pos hstop, takeCount_cons, takeCount_nil, if_pos htk]
          omega
        · rw [if_neg hstop, takeCount_cons, if_pos htk]
          omega
      · rw [if_neg (show ¬((n : Nat) : Int) - 1 = 0 by omega)]
        by_cases hstop : 0 < cb c &&& HWStop
        · rw [if_pos hstop, if_pos hstop]
          rw [takeCount_cons, takeCount_nil, if_pos htk]
          omega
        · rw [if_neg hstop, if_neg hstop]
          rw [takeCount_cons, takeCount_cons, if_pos htk]
          rw [show ((n : Int) - 1) = ((n - 1 : Nat) : Int) by omega]
          rw [ih (n - 1) (by omega)]
          omega

end GitCore

namespace GitCore

theorem getLast_cons_of_some {α : Type} {l : List α} {a b : α}
    (h : l.getLast? = some a) : (b :: l).getLast? = some a := by
  cases l with
  | nil => cases h
  | cons x xs => rw [List.getLast?_cons_cons]; exact h

/-- Part (a2) of the pager law: if the underlying callback takes at least
`n` commits on the walk, the pager trace ends with an action that carries
both `Stop` and `TakeCommit` — `Stop` is set on the commit producing the
`n`-th result. -/
theorem pager_stop_on_nth (cb : Commit → Nat) :
    ∀ (cs : List Commit) (n : Nat), 0 < n →
      n ≤ takeCount (cbTrace cb cs) →
      ∃ a, (pagerTrace cb ⟨0, (n : Int)⟩ cs).getLast? = some a ∧
        0 < a &&& HWStop ∧ 0 < a &&& HWTakeCommit := by
  intro cs
  induction cs with
  | nil =>
    intro n hn hle
    simp [cbTrace, takeCount] at hle
    omega
  | cons c cs ih =>
    intro n hn hle
    rw [cbTrace_cons] at hle
    rw [pagerTrace_cons]
    by_cases htake : cb c &&& HWTakeCommit = 0
    · have h0 : ¬0 < cb c &&& HWTakeCommit := by omega
      rw [pagerStep_no_take _ htake]
      dsimp only
      by_cases hstop : 0 < cb c &&& HWStop
      · rw [if_pos hstop] at hle
        rw [takeCount_cons, takeCount_nil, if_neg h0] at hle
        omega
      · rw [if_neg hstop] at hle
        rw [takeCount_cons, if_neg h0] at hle
        rw [if_neg hstop]
        obtain ⟨a, ha, hs, ht⟩ := ih n hn (by omega)
        exact ⟨a, getLast_cons_of_some ha, hs, ht⟩
    · have htk : 0 < cb c &&& HWTakeCommit := by omega
      rw [pagerStep_count htake rfl (by dsimp only; omega)]
      dsimp only
      by_cases hn1 : n = 1
      · subst hn1
        rw [if_pos (show ((1 : Nat) : Int) - 1 = 0 by omega)]
        rw [if_pos (stop_of_or_stop (cb c))]
        exact ⟨cb c ||| HWStop, rfl, stop_of_or_stop _,
          (take_of_or_stop _).mpr htk⟩
      · rw [if_neg (show ¬((n : Nat) : Int) - 1 = 0 by omega)]
        by_cases hstop : 0 < cb c &&& HWStop
        · rw [if_pos hstop] at hle
          rw [takeCount_cons, takeCount_nil, if_pos htk] at hle
          omega
        · rw [if_neg hstop] at hle
          rw [takeCount_cons, if_pos htk] at hle
          rw [if_neg hstop]
          rw [show ((n : Int) - 1) = ((n - 1 : Nat) : Int) by omega]
          obtain ⟨a, ha, hs, ht⟩ := ih (n - 1) (by omega) (by omega)
          exact ⟨a, getLast_cons_of_some ha, hs, ht⟩

end GitCore

namespace GitCore

/-- Part (b) of the pager law: with `skip = k` and `count = cnt > 0`, a
visited commit that the underlying callback takes keeps its `TakeCommit`
bit in the pager output exactly when at least `k` taken commits strictly
precede it — i.e. `TakeCommit` is stripped from exactly the first `k`
commits the underlying callback takes. -/
theorem pager_strips_first_k (cb : Commit → Nat) :
    ∀ (cs : List Commit) (k cnt : Nat), 0 < cnt →
      ∀ (i p q : Nat),
        (pagerZip cb ⟨(k : Int), (cnt : Int)⟩ cs)[i]? = some (p, q) →
        0 < p &&& HWTakeCommit →
        (0 < q &&& HWTakeCommit ↔
          k ≤ takeCount (((pagerZip cb ⟨(k : Int), (cnt : Int)⟩ cs).take
            i).map Prod.fst)) := by
  intro cs
  induction cs with
  | nil =>
    intro k cnt hcnt i p q hget
    simp [pagerZip] at hget
  | cons c cs ih =>
    intro k cnt hcnt i p q hget hfst
    rw [pagerZip_cons] at hget ⊢
    by_cases htake : cb c &&& HWTakeCommit = 0
    · rw [pagerStep_no_take _ htake] at hget ⊢
      dsimp only at hget ⊢
      by_cases hstop : 0 < cb c &&& HWStop
      · rw [if_pos hstop] at hget ⊢
        cases i with
        | zero =>
          simp only [List.getElem?_cons_zero, Option.some.injEq,
            Prod.mk.injEq] at hget
          obtain ⟨hp, hq⟩ := hget
          subst hp
          omega
        | succ i => simp at hget
      · rw [if_neg hstop] at hget ⊢
        cases i with
        | zero =>
          simp only [List.getElem?_cons_zero, Option.some.injEq,
            Prod.mk.injEq] at hget
          obtain ⟨hp, hq⟩ := hget
          subst hp
          omega
        | succ i =>
          rw [List.getElem?_cons_succ] at hget
          rw [List.take_succ_cons, List.map_cons, takeCount_cons]
          rw [if_neg (show ¬0 < cb c &&& HWTakeCommit by omega)]
          rw [ih k cnt hcnt i p q hget hfst]
          omega
    · have htk : 0 < cb c &&& HWTakeCommit := by omega
      by_cases hk : k = 0
      · subst hk
        rw [pagerStep_count htake rfl (by dsimp only; omega)] at hget ⊢
        dsimp only at hget ⊢
        by_cases hc1 : cnt = 1
        · subst hc1
          rw [if_pos (show ((1 : Nat) : Int) - 1 = 0 by omega)] at hget ⊢
          rw [if_pos (stop_of_or_stop (cb c))] at hget ⊢
          cases i with
          | zero =>
            simp only [List.getElem?_cons_zero, Option.some.injEq,
              Prod.mk.injEq] at hget
            obtain ⟨hp, hq⟩ := hget
            subst hp; subst hq
            simp only [List.take_zero, List.map_nil, takeCount_nil]
            exact ⟨fun _ => Nat.le_refl 0,
              fun _ => (take_of_or_stop _).mpr htk⟩
          | succ i => simp at hget
        · rw [if_neg (show ¬((cnt : Nat) : Int) - 1 = 0 by omega)]
            at hget ⊢
          by_cases hstop : 0 < cb c &&& HWStop
          · rw [if_pos hstop] at hget ⊢
            cases i with
            | zero =>
              simp only [List.getElem?_cons_zero, Option.some.injEq,
                Prod.mk.injEq] at hget
              obtain ⟨hp, hq⟩ := hget
              subst hp; subst hq
              simp only [List.take_zero, List.map_nil, takeCount_nil]
              exact ⟨fun _ => Nat.le_refl 0, fun _ => htk⟩
            | succ i => simp at hget
          · rw [if_neg hstop] at hget ⊢
            cases i with
            | zero =>
              simp only [List.getElem?_cons_zero, Option.some.injEq,
                Prod.mk.injEq] at hget
              obtain ⟨hp, hq⟩ := hget
              subst hp; subst hq
              simp only [List.take_zero, List.map_nil, takeCount_nil]
              exact ⟨fun _ => Nat.le_refl 0, fun _ => htk⟩
            | succ i =>
              rw [List.getElem?_cons_succ] at hget
              rw [List.take_succ_cons, List.map_cons, takeCount_cons]
              rw [show ((cnt : Int) - 1) = ((cnt - 1 : Nat) : Int) by omega]
                at hget ⊢
              rw [ih 0 (cnt - 1) (by omega) i p q hget hfst]
              omega
      · rw [pagerStep_skip htake (by dsimp only; omega)] at hget ⊢
        dsimp only at hget ⊢
        have hout : ¬0 < andNotGo (cb c) HWTakeCommit &&& HWTakeCommit := by
          rw [strip_take_no_take]; omega
        by_cases hstop : 0 < cb c &&& HWStop
        · rw [if_pos ((strip_take_stop _).mpr hstop)] at hget ⊢
          cases i with
          | zero =>
            simp only [List.getElem?_cons_zero, Option.some.injEq,
              Prod.mk.injEq] at hget
            obtain ⟨hp, hq⟩ := hget
            subst hp; subst hq
            simp only [List.take_zero, List.map_nil, takeCount_nil]
            exact ⟨fun hc => absurd hc hout, fun hc => by omega⟩
          | succ i => simp at hget
        · rw [if_neg (fun hc => hstop ((strip_take_stop _).mp hc))]
            at hget ⊢
          cases i with
          | zero =>
            simp only [List.getElem?_cons_zero, Option.some.injEq,
              Prod.mk.injEq] at hget
            obtain ⟨hp, hq⟩ := hget
            subst hp; subst hq
            simp only [List.take_zero, List.map_nil, takeCount_nil]
            exact ⟨fun hc => absurd hc hout, fun hc => by omega⟩
          | succ i =>
            rw [List.getElem?_cons_succ] at hget
            rw [List.take_succ_cons, List.map_cons, takeCount_cons]
            rw [if_pos htk]
            rw [show ((k : Int) - 1) = ((k - 1 : Nat) : Int) by omega]
              at hget ⊢
            rw [ih (k - 1) cnt hcnt i p q hget hfst]
            omega

end GitCore

namespace GitCore

theorem pager_zero_count_trace (cb : Commit → Nat) :
    ∀ (cs : List Commit), takeCount (pagerTrace cb ⟨0, 0⟩ cs) = 0 := by
  intro cs
  induction cs with
  | nil => simp [pagerTrace, takeCount]
  | cons c cs ih =>
    rw [pagerTrace_cons]
    by_cases htake : cb c &&& HWTakeCommit = 0
    · rw [pagerStep_no_take _ htake]
      dsimp only
      by_cases hstop : 0 < cb c &&& HWStop
      · rw [if_pos hstop, takeCount_cons, takeCount_nil,
          if_neg (show ¬0 < cb c &&& HWTakeCommit by omega)]
      · rw [if_neg hstop, takeCount_cons, ih,
          if_neg (show ¬0 < cb c &&& HWTakeCommit by omega)]
    · rw [pagerStep_exhausted htake rfl rfl]
      dsimp only
      rw [if_pos (show 0 < HWStop &&& HWStop by decide)]
      rw [takeCount_cons, takeCount_nil,
        if_neg (show ¬0 < HWStop &&& HWTakeCommit by decide)]

theorem pager_zero_stops_at_first_take (cb : Commit → Nat) :
    ∀ (cs : List Commit) (i p q : Nat),
      (pagerZip cb ⟨0, 0⟩ cs)[i]? = some (p, q) →
      0 < p &&& HWTakeCommit →
      (i = (pagerZip cb ⟨0, 0⟩ cs).length - 1 ∧ q = HWStop) := by
  intro cs
  induction cs with
  | nil => intro i p q hget; simp [pagerZip] at hget
  | cons c cs ih =>
    intro i p q hget hfst
    rw [pagerZip_cons] at hget ⊢
    by_cases htake : cb c &&& HWTakeCommit = 0
    · rw [pagerStep_no_take _ htake] at hget ⊢
      dsimp only at hget ⊢
      by_cases hstop : 0 < cb c &&& HWStop
      · rw [if_pos hstop] at hget ⊢
        cases i with
        | zero =>
          simp only [List.getElem?_cons_zero, Option.some.injEq,
            Prod.mk.injEq] at hget
          obtain ⟨hp, hq⟩ := hget
          subst hp
          omega
        | succ i => simp at hget
      · rw [if_neg hstop] at hget ⊢
        cases i with
        | zero =>
          simp only [List.getElem?_cons_zero, Option.some.injEq,
            Prod.mk.injEq] at hget
          obtain ⟨hp, hq⟩ := hget
          subst hp
          omega
        | succ i =>
          rw [List.getElem?_cons_succ] at hget
          obtain ⟨hlen, hq⟩ := ih i p q hget hfst
          have hlt : i < (pagerZip cb ⟨0, 0⟩ cs).length :=
            List.getElem?_eq_some.mp hget |>.1
          refine ⟨?_, hq⟩
          rw [List.length_cons]
          omega
    · rw [pagerStep_exhausted htake rfl rfl] at hget ⊢
      dsimp only at hget ⊢
      rw [if_pos (show 0 < HWStop &&& HWStop by decide)] at hget ⊢
      cases i with
      | zero =>
        simp only [List.getElem?_cons_zero, Option.some.injEq,
          Prod.mk.injEq] at hget
        exact ⟨rfl, hget.2.symm⟩
      | succ i => simp at hget

/-- C8 (the pager law, for error-free underlying callbacks; a callback
error aborts the walk with no results at all).  `cs` is the stream of
commits the walker hands to the callback; the walk ends with the first
action whose `Stop` bit is set, and the walker yields exactly the commits
whose returned action has `TakeCommit` set.  Conjuncts: (a) with
`skip = 0, count = n > 0` the pager yields `min n (total takes of cb)`
results and sets `Stop` on the commit producing the `n`-th; (b) with
`skip = k, count > 0` it strips `TakeCommit` from exactly the first `k`
commits cb takes; (c) with `skip = 0, count = 0` it yields 0 results and
returns plain `HWStop` at the first commit cb takes, ending the walk
there. -/
theorem makePager_law (cb : Commit → Nat) (cs : List Commit) :
    (∀ n : Nat, 0 < n →
      takeCount (pagerTrace cb ⟨0, (n : Int)⟩ cs) =
        min n (takeCount (cbTrace cb cs)) ∧
      (n ≤ takeCount (cbTrace cb cs) →
        ∃ a, (pagerTrace cb ⟨0, (n : Int)⟩ cs).getLast? = some a ∧
          0 < a &&& HWStop ∧ 0 < a &&& HWTakeCommit)) ∧
    (∀ (k cnt : Nat), 0 < cnt → ∀ (i p q : Nat),
      (pagerZip cb ⟨(k : Int), (cnt : Int)⟩ cs)[i]? = some (p, q) →
      0 < p &&& HWTakeCommit →
      (0 < q &&& HWTakeCommit ↔
        k ≤ takeCount (((pagerZip cb ⟨(k : Int), (cnt : Int)⟩ cs).take
          i).map Prod.fst))) ∧
    (takeCount (pagerTrace cb ⟨0, 0⟩ cs) = 0 ∧
      ∀ (i p q : Nat), (pagerZip cb ⟨0, 0⟩ cs)[i]? = some (p, q) →
        0 < p &&& HWTakeCommit →
        (i = (pagerZip cb ⟨0, 0⟩ cs).length - 1 ∧ q = HWStop)) :=
  ⟨fun n hn => ⟨pager_count_min cb cs n hn, pager_stop_on_nth cb cs n hn⟩,
   fun k cnt hcnt => pager_strips_first_k cb cs k cnt hcnt,
   pager_zero_count_trace cb cs,
   fun i p q => pager_zero_stops_at_first_take cb cs i p q⟩

/-- Witness for C8: with an always-TakeAndFollow underlying callback on a
three-commit walk, `makePager(cb, 0, 2)` yields `min 2 3 = 2` results. -/
theorem makePager_law_witness :
    (0 : Nat) < 2 ∧
    takeCount (pagerTrace (fun _ => HWTakeAndFollow)
        ⟨0, ((2 : Nat) : Int)⟩ [cOldRoot, cNewRoot, cMerge]) =
      min 2 (takeCount (cbTrace (fun _ => HWTakeAndFollow)
        [cOldRoot, cNewRoot, cMerge])) :=
  ⟨by decide,
   ((makePager_law (fun _ => HWTakeAndFollow)
      [cOldRoot, cNewRoot, cMerge]).1 2 (by decide)).1⟩

end GitCore

namespace GitCore

/-- A 20-byte object id as read from disk. -/
abbrev ShaBytes := List Nat

/-- Modelled from the spec: the `idxFile` structure is the PackIndex of
spec section 3 (its Go declaration is not among the provided sources):
the index path, the sibling `.pack` path, the map from object id to 64-bit
pack offset, and the pack version. -/
structure idxFile where
  indexpath : String
  packpath : String
  offsetValues : List (ShaBytes × Nat)
  packversion : Nat

/-- `io.ReadFull`: exactly `n` bytes from position `pos`, or an error. -/
def readFullN (data : List Nat) (pos n : Nat) : Option (List Nat × Nat) :=
  if pos + n ≤ data.length then some ((data.drop pos).take n, pos + n)
  else none

/-- Big-endian `uint32` from 4 bytes. -/
def beU32 : List Nat → Nat
  | [a, b, c, d] => ((a * 256 + b) * 256 + c) * 256 + d
  | _ => 0

/-- Consecutive big-endian `uint32` values (`binary.Read` into `[]uint32`). -/
def parseU32List : List Nat → List Nat
  | a :: b :: c :: d :: rest => beU32 [a, b, c, d] :: parseU32List rest
  | _ => []

/-- Consecutive big-endian `uint64` values (`binary.Read` into `[]uint64`). -/
def parseU64List : List Nat → List Nat
  | a :: b :: c :: d :: e :: f :: g :: h :: rest =>
    List.foldl (fun acc x => acc * 256 + x) 0 [a, b, c, d, e, f, g, h] ::
      parseU64List rest
  | _ => []

/-- `checkIdxVersion`: 8 bytes = 4-byte magic + big-endian version. -/
def checkIdxVersion (data : List Nat) (pos : Nat) (magic : List Nat)
    (version : Nat) : Except String Nat :=
  match readFullN data pos 8 with
  | none => .error "Unexpected EOF"
  | some (buf, pos1) =>
    if buf.take 4 ≠ magic then .error "Unknown magic byte"
    else if beU32 (buf.drop 4) ≠ version then .error "Not a version 2 idx file"
    else .ok pos1

/-- The per-object 20-byte id reads of `readIdxFile` (level 2). -/
def readIds (data : List Nat) : Nat → Nat → Option (List ShaBytes × Nat)
  | 0, pos => some ([], pos)
  | n + 1, pos =>
    match readFullN data pos 20 with
    | none => none
    | some (id, pos1) =>
      match readIds data n pos1 with
      | none => none
      | some (ids, pos2) => some (id :: ids, pos2)

/-- `isIdxOffsetValue64`: MSB of a `uint32` plus its other 31 bits. -/
def isIdxOffsetValue64 (v : Nat) : Bool × Nat :=
  (v &&& (1 <<< 31) > 0, andNotGo v (1 <<< 31))

/-- The level-4 loop of `readIdxFile` over all ids: each 32-bit offset is
either a direct map entry (MSB clear) or a link into the 64-bit table.
`none` models the `err != binary.Read(idx, …, &ov)` comparison taken with
`err` still `nil`: the function returns `(nil, nil)` — no error. -/
def readOffsets32 (data : List Nat) :
    List ShaBytes → Nat → List (ShaBytes × Nat) → List (ShaBytes × Nat) →
    Option (List (ShaBytes × Nat) × List (ShaBytes × Nat) × Nat)
  | [], pos, direct, links => some (direct, links, pos)
  | id :: rest, pos, direct, links =>
    match readFullN data pos 4 with
    | none => none
    | some (w, pos1) =>
      let r := isIdxOffsetValue64 (beU32 w)
      if r.1 then readOffsets32 data rest pos1 direct (links ++ [(id, r.2)])
      else readOffsets32 data rest pos1 (direct ++ [(id, r.2)]) links

/-- The level-5 lookup loop: each link indexes the 64-bit table; an
out-of-range index is a (proper) error. -/
def resolveLinks (offsetValues64 : List Nat) :
    List (ShaBytes × Nat) → Except String (List (ShaBytes × Nat))
  | [] => .ok []
  | (id, off) :: rest =>
    if offsetValues64.length ≤ off then
      .error "Unexpected large index to 64bit index table"
    else
      match resolveLinks offsetValues64 rest with
      | .error e => .error e
      | .ok tl => .ok ((id, offsetValues64.getD off 0) :: tl)

/-- `readIdxFile`: parse a version-2 pack index.  `data` are the file's
bytes, `hash` abstracts `crypto/sha1` (the tee digest is the hash of all
bytes consumed before the trailer), `packData` is the sibling `.pack`
content if that file exists.  The result models Go's `(*idxFile, error)`:
`.error e` is a non-nil error, `.ok (some f)` a normal success, and
`.ok none` is `return nil, nil` — a nil error with a nil file — which the
source reaches through the `if err != binary.Read(…)` comparisons (`err`
is still nil there, so a failed read returns the nil `err`). -/
def readIdxFile (hash : List Nat → List Nat) (path : String)
    (data : List Nat) (packData : Option (List Nat)) :
    Except String (Option idxFile) :=
  let packpath := path.dropRight 3 ++ "pack"
  match checkIdxVersion data 0 [255, 116, 79, 99] 2 with
  | .error e => .error e
  | .ok pos1 =>
    match readFullN data pos1 1024 with
    | none => .error "Unexpected EOF"
    | some (fanoutBytes, pos2) =>
      let fanout := parseU32List fanoutBytes
      let numObjects := fanout.getD 255 0
      match readIds data numObjects pos2 with
      | none => .error "Too short for sha1"
      | some (ids, pos3) =>
        if data.length < pos3 + 4 * numObjects then .error "Unexpected EOF"
        else
          let pos4 := pos3 + 4 * numObjects
          match readOffsets32 data ids pos4 [] [] with
          | none => .ok none
          | some (direct, links, pos5) =>
            match readFullN data pos5 (8 * links.length) with
            | none => .ok none
            | some (b64, pos6) =>
              let offsetValues64 := parseU64List b64
              match resolveLinks offsetValues64 links with
              | .error e => .error e
              | .ok resolved =>
                if data.length < pos6 + 20 then .error "Unexpected EOF"
                else
                  let pos7 := pos6 + 20
                  let hashCalculated := hash (data.take pos7)
                  match readFullN data pos7 20 with
                  | none => .error "Unexpected EOF"
                  | some (hashFile, _) =>
                    if hashFile ≠ hashCalculated then
                      .error "Chacksum missmatch"
                    else
                      match packData with
                      | none => .error "no such file or directory"
                      | some pd =>
                        match checkIdxVersion pd 0 [80, 65, 67, 75] 2 with
                        | .error e => .error e
                        | .ok _ =>
                          .ok (some ⟨path, packpath, direct ++ resolved, 2⟩)

/-- A version-2 index advertising one object whose 32-bit offset table is
entirely missing: magic+version, a fanout whose entry 255 is 1, one
20-byte id, 4 CRC bytes, then end of file. -/
def idxTruncatedData : List Nat :=
  [255, 116, 79, 99, 0, 0, 0, 2] ++ List.replicate 1020 0 ++ [0, 0, 0, 1] ++
    List.replicate 20 170 ++ List.replicate 4 0

set_option maxRecDepth 100000 in
/-- C4 (code bug, `readIdxFile` lines 111–131): on an index file truncated
inside the 32-bit offset table, `readIdxFile` returns a nil error together
with a nil `*idxFile` (modelled `.ok none`) for every hash function — the
`if err != binary.Read(idx, binary.BigEndian, &ov)` comparison is taken
with `err` still nil, so the read failure returns `(nil, nil)` instead of
a non-nil error; the same pattern guards the 64-bit table read. -/
theorem readIdxFile_truncated_offsets_nil_error :
    ∀ hash : List Nat → List Nat,
      readIdxFile hash "pack-a.idx" idxTruncatedData none = .ok none :=
  fun _ => rfl

end GitCore

namespace GitCore

/-- The 10-entry `shift` table of `readLenInPackFile`. -/
def shiftTable : List Nat := [0, 4, 11, 18, 25, 32, 39, 46, 53, 60]

/-- Reduction of a bit pattern to 64 bits (Go's fixed-width `int64`
arithmetic discards higher bits). -/
def wrap64 (x : Nat) : Nat := x % (2 ^ 64)

/-- The `for buf[advance]&0x80 > 0` loop of `readLenInPackFile`.  `none`
models a Go runtime panic: an out-of-range index into `buf` or into the
10-entry `shift` table.  The fuel only bounds the recursion syntactically;
11 is always enough because the shift table runs out first. -/
def readLenLoop (buf : List Nat) : Nat → Nat → Nat → Option (Nat × Nat)
  | 0, _, _ => none
  | fuel + 1, length, advance =>
    match buf[advance]? with
    | none => none
    | some b =>
      if b &&& 0x80 > 0 then
        match buf[advance + 1]?, shiftTable[advance + 1]? with
        | some b2, some sh =>
          readLenLoop buf fuel
            (wrap64 (length + wrap64 ((b2 &&& 0x7F) <<< sh))) (advance + 1)
        | _, _ => none
      else some (length, advance + 1)

/-- `readLenInPackFile`: the low 4 bits of byte 0 start the length; each
continuation byte contributes 7 bits at `shift[advance]`.  Returns the
64-bit length pattern and the number of header bytes consumed; `none` is a
panic (out-of-range access). -/
def readLenInPackFile (buf : List Nat) : Option (Nat × Nat) :=
  match buf[0]? with
  | none => none
  | some b0 => readLenLoop buf 11 (b0 &&& 0x0F) 0

/-- The 1 KiB buffer `readObjectBytes` hands to `readLenInPackFile`:
`buf := make([]byte, 1024)` filled by a single `file.Read` at `offset`
(returning `min 1024 (len − offset)` bytes); the rest keeps its zero
initialisation, and the whole 1024-byte slice is passed on. -/
def packReadBuf (content : List Nat) (offset : Nat) : List Nat :=
  (content.drop offset).take 1024 ++
    List.replicate (1024 - min 1024 (content.length - offset)) 0

/-- Lines 273–277 of `readObjectBytes`: the offset-delta integer loop.
`num` is kept as a 64-bit pattern; `none` is an out-of-range `buf`
index. -/
def offsetDeltaLoop (buf : List Nat) : Nat → Nat → Nat → Option (Nat × Nat)
  | 0, _, _ => none
  | fuel + 1, num, pos =>
    match buf[pos]? with
    | none => none
    | some b =>
      if b &&& 0x80 > 0 then
        match buf[pos + 1]? with
        | none => none
        | some b2 =>
          offsetDeltaLoop buf fuel
            (wrap64 (((num + 1) <<< 7) ||| (b2 &&& 0x7F))) (pos + 1)
      else some (num, pos + 1)

/-- `num := int64(buf[pos]) & 0x7f` followed by the continuation loop; the
returned position is `pos + 1` past the last varint byte (line 279). -/
def offsetDeltaDecode (buf : List Nat) (pos : Nat) : Option (Nat × Nat) :=
  match buf[pos]? with
  | none => none
  | some b => offsetDeltaLoop buf (buf.length + 1) (b &&& 0x7F) pos

/-- Two's-complement `int64` value of a 64-bit pattern. -/
def int64ofPat (p : Nat) : Int :=
  if p < 2 ^ 63 then (p : Int) else (p : Int) - 2 ^ 64

/-- Go `uint64(x)` of an `int64` value: its bit pattern as a `Nat`. -/
def uint64ofInt (x : Int) : Nat := (x % (2 ^ 64)).toNat

/-- Modelled from the spec: `NewId` builds an ObjectId from exactly 20
bytes (spec section 3: "an opaque 20-byte value"); its Go declaration is
not among the provided sources. -/
def NewId (bs : List Nat) : Except String ShaBytes :=
  if bs.length = 20 then .ok bs else .error "invalid id length"

/-- `(*indexfiles)[key]`: map lookup; `none` is Go's zero value (a nil
`*idxFile`). -/
def lookupIdx (m : List (String × idxFile)) (k : String) : Option idxFile :=
  (m.find? (fun p => p.1 == k)).map Prod.snd

/-- `f.offsetValues[id]`: map lookup by 20-byte id. -/
def lookupOffset (m : List (ShaBytes × Nat)) (id : ShaBytes) : Option Nat :=
  (m.find? (fun p => p.1 == id)).map Prod.snd

/-- Modelled from the spec: the `ObjectType` constants compared against
`buf[0] & 0x70` (spec sections 3 and 4.D: the header byte carries
`type << 4`, with 1 = Commit, 2 = Tree, 3 = Blob, 4 = Tag); their Go
declarations are not among the provided sources. -/
def ObjectCommit : Nat := 0x10

/-- Modelled from the spec: `ObjectTree = 2 << 4`. -/
def ObjectTree : Nat := 0x20

/-- Modelled from the spec: `ObjectBlob = 3 << 4`. -/
def ObjectBlob : Nat := 0x30

/-- Modelled from the spec: `ObjectTag = 4 << 4`. -/
def ObjectTag : Nat := 0x40

/-- Outcome of the header/base-resolution phase of `readObjectBytes`
(`repo_utils.go` lines 205–298), everything before the recursive call on
the delta base: a non-delta object header (the function then inflates at
`offset + pos`), the resolved base offset of a delta (the function then
recurses on it), an error return, `log.Fatal` (process termination), or a
runtime panic. -/
inductive PackHeader where
  | direct (ot length pos : Nat)
  | delta (baseObjectOffset pos ot length : Nat)
  | err (msg : String)
  | fatal (msg : String)
  | crash
deriving DecidableEq

/-- The header/base-resolution phase of `readObjectBytes`: open the pack
(content `content`), seek to `offset`, fill the 1 KiB buffer with one
read, decode the type/size header; for type bits 0x60 decode the
offset-delta integer and use base `offset − num`; for 0x70 read the
20-byte base id and look it up in `(*indexfiles)[path − ".pack" + "idx"]`,
reaching `log.Fatal("not implemented yet")` when the id is absent.  Type
bits without a switch case (0x00, 0x50) fall through with
`baseObjectOffset = 0`. -/
def readObjectBytesHeader (indexfiles : List (String × idxFile))
    (path : String) (content : List Nat) (offset : Nat) : PackHeader :=
  if min 1024 (content.length - offset) = 0 then .err "EOF"
  else
    let buf := packReadBuf content offset
    let ot := buf.getD 0 0 &&& 0x70
    match readLenInPackFile buf with
    | none => .crash
    | some (l, p) =>
      if ot = ObjectCommit ∨ ot = ObjectTree ∨ ot = ObjectBlob ∨
          ot = ObjectTag then
        .direct ot l p
      else if ot = 0x60 then
        match offsetDeltaDecode buf p with
        | none => .crash
        | some (num, p1) =>
          .delta (uint64ofInt ((offset : Int) - int64ofPat num)) p1 ot l
      else if ot = 0x70 then
        match NewId ((buf.drop p).take 20) with
        | .error e => .err e
        | .ok id =>
          match lookupIdx indexfiles (path.dropRight 4 ++ "idx") with
          | none => .crash
          | some f =>
            match lookupOffset f.offsetValues id with
            | none => .fatal "not implemented yet"
            | some baseOff => .delta baseOff (p + 20) ot l
      else .delta 0 p ot l

/-- A pack whose object at offset 0 is a RefDelta header: type byte 0x70
(no continuation) followed by a 20-byte base id. -/
def refDeltaPack : List Nat := 0x70 :: List.replicate 20 170

/-- An index for that pack whose offset map is empty, so the RefDelta base
id is absent. -/
def refDeltaIdx : idxFile := ⟨"p.idx", "p.pack", [], 2⟩

set_option maxRecDepth 10000 in
/-- C3 (code bug, `readObjectBytes` lines 281–298): reading a RefDelta
object whose 20-byte base id is absent from the associated index's offset
map reaches `log.Fatal("not implemented yet")`, which terminates the
process; the `err = errors.New("base object is not exist"); return` lines
after it are unreachable, so no lookup error is ever returned to the
caller. -/
theorem refDelta_missing_base_fatal :
    readObjectBytesHeader [("p.idx", refDeltaIdx)] "p.pack" refDeltaPack 0 =
      .fatal "not implemented yet" := rfl

end GitCore

namespace GitCore

theorem readLenLoop_sound (buf : List Nat) :
    ∀ (fuel length advance : Nat), advance < 10 →
      (readLenLoop buf fuel length advance).isSome →
      ∃ k, advance ≤ k ∧ k < 10 ∧
        ∃ (hk : k < buf.length), buf[k] &&& 0x80 = 0 := by
  intro fuel
  induction fuel with
  | zero => intro length advance h10 h; simp [readLenLoop] at h
  | succ n ih =>
    intro length advance h10 h
    unfold readLenLoop at h
    cases hb : buf[advance]? with
    | none => rw [hb] at h; simp at h
    | some b =>
      rw [hb] at h
      dsimp only at h
      by_cases hbit : b &&& 0x80 > 0
      · rw [if_pos hbit] at h
        cases hb2 : buf[advance + 1]? with
        | none => rw [hb2] at h; simp at h
        | some b2 =>
          rw [hb2] at h
          cases hsh : shiftTable[advance + 1]? with
          | none => rw [hsh] at h; simp at h
          | some sh =>
            rw [hsh] at h
            dsimp only at h
            have h10n : advance + 1 < 10 := by
              have := (List.getElem?_eq_some.mp hsh).1
              simpa [shiftTable] using this
            obtain ⟨k, hk1, hk2, hk3⟩ := ih _ _ h10n h
            exact ⟨k, by omega, hk2, hk3⟩
      · rw [if_neg hbit] at h
        obtain ⟨hlt, heq⟩ := List.getElem?_eq_some.mp hb
        exact ⟨advance, Nat.le_refl _, h10, hlt, by rw [heq]; omega⟩

theorem readLenLoop_complete (buf : List Nat) (k : Nat) (h10 : k < 10)
    (hk : k < buf.length) (hclear : buf[k] &&& 0x80 = 0) :
    ∀ (fuel advance length : Nat), advance ≤ k → 11 - advance ≤ fuel →
      (readLenLoop buf fuel length advance).isSome := by
  intro fuel
  induction fuel with
  | zero => intro advance length hle hfuel; omega
  | succ n ih =>
    intro advance length hle hfuel
    unfold readLenLoop
    have hadv : advance < buf.length := lt_of_le_of_lt hle hk
    rw [List.getElem?_eq_getElem hadv]
    dsimp only
    by_cases hbit : buf[advance] &&& 0x80 > 0
    · rw [if_pos hbit]
      have hne : advance ≠ k := by
        intro he; subst he; omega
      have hlt2 : advance + 1 ≤ k := by omega
      have hbl : advance + 1 < buf.length := lt_of_le_of_lt hlt2 hk
      have hsl : advance + 1 < shiftTable.length := by
        simp [shiftTable]; omega
      rw [List.getElem?_eq_getElem hbl, List.getElem?_eq_getElem hsl]
      dsimp only
      exact ih (advance + 1) _ hlt2 (by omega)
    · rw [if_neg hbit]
      simp

set_option maxRecDepth 10000 in
/-- C10: `readLenInPackFile` terminates without any out-of-range access
(modelled: returns `some`) exactly when the buffer has, among its first 10
bytes and within its length, a byte with bit 7 clear; and the caller
`readObjectBytes` passes the 1 KiB single-`Read` buffer without enforcing
that precondition — a pack whose first 10 bytes all have bit 7 set drives
the phase into the panic (`shift[10]` is out of range). -/
theorem readLenInPackFile_safety :
    (∀ buf : List Nat, (readLenInPackFile buf).isSome ↔
      ∃ k, k < 10 ∧ ∃ (hk : k < buf.length), buf[k] &&& 0x80 = 0) ∧
    readObjectBytesHeader [] "p.pack" (List.replicate 10 255) 0 = .crash := by
  constructor
  · intro buf
    constructor
    · intro h
      unfold readLenInPackFile at h
      cases hb : buf[0]? with
      | none => rw [hb] at h; simp at h
      | some b0 =>
        rw [hb] at h
        dsimp only at h
        obtain ⟨k, _, hk2, hk3⟩ :=
          readLenLoop_sound buf 11 _ 0 (by omega) h
        exact ⟨k, hk2, hk3⟩
    · rintro ⟨k, h10, hkl, hclear⟩
      unfold readLenInPackFile
      have h0 : 0 < buf.length := by omega
      rw [List.getElem?_eq_getElem h0]
      dsimp only
      exact readLenLoop_complete buf k h10 hkl hclear 11 0 _ (by omega)
        (by omega)
  · rfl

end GitCore

namespace GitCore

theorem nat_le_lor (a b : Nat) : a ≤ a ||| b := by
  have h : (a ||| b) &&& a = a := by
    apply Nat.eq_of_testBit_eq
    intro i
    rw [Nat.testBit_and, Nat.testBit_or]
    cases h : a.testBit i <;> simp [h]
  calc a = (a ||| b) &&& a := h.symm
    _ ≤ a ||| b := Nat.and_le_left

/-- The offset-delta recurrence exactly as the specification words it, in
unbounded arithmetic over the byte sequence `b0 :: rest`: `num` starts as
the low 7 bits of `b0`, and each continuation step maps `num` to
`((num + 1) <<< 7) ||| (b &&& 0x7f)`. -/
def specOffsetDeltaNum (b0 : Nat) (rest : List Nat) : Nat :=
  rest.foldl (fun num b => ((num + 1) <<< 7) ||| (b &&& 0x7F)) (b0 &&& 0x7F)

/-- The same recurrence in the 64-bit wrapping arithmetic of the source,
from an arbitrary starting pattern. -/
def wrapFold (num : Nat) (bs : List Nat) : Nat :=
  bs.foldl (fun n b => wrap64 (((n + 1) <<< 7) ||| (b &&& 0x7F))) num

/-- The exact recurrence from an arbitrary starting value. -/
def exactFold (num : Nat) (bs : List Nat) : Nat :=
  bs.foldl (fun n b => ((n + 1) <<< 7) ||| (b &&& 0x7F)) num

theorem spec_step_lt (num b : Nat) :
    num < ((num + 1) <<< 7) ||| (b &&& 0x7F) := by
  have h1 : num + 1 ≤ (num + 1) <<< 7 := by
    rw [Nat.shiftLeft_eq]
    have : (1 : Nat) ≤ 2 ^ 7 := by norm_num
    calc num + 1 = (num + 1) * 1 := by ring
      _ ≤ (num + 1) * 2 ^ 7 := Nat.mul_le_mul_left _ this
  exact lt_of_lt_of_le (lt_of_lt_of_le (Nat.lt_succ_self num) h1)
    (nat_le_lor _ _)

theorem le_exactFold : ∀ (bs : List Nat) (num : Nat),
    num ≤ exactFold num bs := by
  intro bs
  induction bs with
  | nil => intro num; exact Nat.le_refl _
  | cons b bs ih =>
    intro num
    calc num ≤ ((num + 1) <<< 7) ||| (b &&& 0x7F) :=
          Nat.le_of_lt (spec_step_lt num b)
      _ ≤ exactFold (((num + 1) <<< 7) ||| (b &&& 0x7F)) bs := ih _
      _ = exactFold num (b :: bs) := rfl

theorem wrapFold_eq_exactFold : ∀ (bs : List Nat) (num : Nat),
    num < 2 ^ 64 → exactFold num bs < 2 ^ 64 →
    wrapFold num bs = exactFold num bs := by
  intro bs
  induction bs with
  | nil => intro num h1 h2; rfl
  | cons b bs ih =>
    intro num h1 h2
    have hstep : exactFold num (b :: bs) =
        exactFold (((num + 1) <<< 7) ||| (b &&& 0x7F)) bs := rfl
    have hmid : ((num + 1) <<< 7) ||| (b &&& 0x7F) < 2 ^ 64 :=
      lt_of_le_of_lt (le_exactFold bs _) (hstep ▸ h2)
    have hwrap : wrap64 (((num + 1) <<< 7) ||| (b &&& 0x7F)) =
        ((num + 1) <<< 7) ||| (b &&& 0x7F) := Nat.mod_eq_of_lt hmid
    calc wrapFold num (b :: bs)
        = wrapFold (wrap64 (((num + 1) <<< 7) ||| (b &&& 0x7F))) bs := rfl
      _ = wrapFold (((num + 1) <<< 7) ||| (b &&& 0x7F)) bs := by rw [hwrap]
      _ = exactFold (((num + 1) <<< 7) ||| (b &&& 0x7F)) bs :=
          ih _ hmid (hstep ▸ h2)
      _ = exactFold num (b :: bs) := rfl

theorem offsetDeltaLoop_fold (buf : List Nat) :
    ∀ (fuel num pos res p1 : Nat),
      offsetDeltaLoop buf fuel num pos = some (res, p1) →
      pos + 1 ≤ p1 ∧
        res = wrapFold num ((buf.drop (pos + 1)).take (p1 - (pos + 1))) := by
  intro fuel
  induction fuel with
  | zero => intro num pos res p1 h; simp [offsetDeltaLoop] at h
  | succ n ih =>
    intro num pos res p1 h
    unfold offsetDeltaLoop at h
    cases hb : buf[pos]? with
    | none => rw [hb] at h; simp at h
    | some b =>
      rw [hb] at h
      dsimp only at h
      by_cases hbit : b &&& 0x80 > 0
      · rw [if_pos hbit] at h
        cases hb2 : buf[pos + 1]? with
        | none => rw [hb2] at h; simp at h
        | some b2 =>
          rw [hb2] at h
          dsimp only at h
          obtain ⟨hle, hres⟩ := ih _ _ _ _ h
          have hlt2 : pos + 1 < buf.length :=
            (List.getElem?_eq_some.mp hb2).1
          have hgot : buf[pos + 1] = b2 := (List.getElem?_eq_some.mp hb2).2
          constructor
          · omega
          · rw [hres]
            rw [List.drop_eq_getElem_cons hlt2, hgot]
            rw [show p1 - (pos + 1) = (p1 - (pos + 2)) + 1 by omega]
            rw [List.take_succ_cons]
            rfl
      · rw [if_neg hbit] at h
        cases h
        constructor
        · omega
        · simp [wrapFold]

/-- C7: the OffsetDelta path of `readObjectBytes`.  First conjunct: the
embedded decoder computes exactly the claimed recurrence — `num` starts as
the low 7 bits of the first byte and each continuation step yields
`((num + 1) <<< 7) ||| (b &&& 0x7f)` — whenever the exact value fits 64
bits (the source accumulates in an `int64`).  Second conjunct: on a pack
whose header at `offset` has type bits 0x60, the phase resolves the base
at `offset − num` within the same pack. -/
theorem offsetDelta_decoding_follows_spec :
    (∀ (buf : List Nat) (pos num p1 : Nat),
      offsetDeltaDecode buf pos = some (num, p1) →
      specOffsetDeltaNum (buf.getD pos 0)
          ((buf.drop (pos + 1)).take (p1 - (pos + 1))) < 2 ^ 64 →
      num = specOffsetDeltaNum (buf.getD pos 0)
          ((buf.drop (pos + 1)).take (p1 - (pos + 1)))) ∧
    (∀ (indexfiles : List (String × idxFile)) (path : String)
        (content : List Nat) (offset l p num p1 : Nat),
      min 1024 (content.length - offset) ≠ 0 →
      (packReadBuf content offset).getD 0 0 &&& 0x70 = 0x60 →
      readLenInPackFile (packReadBuf content offset) = some (l, p) →
      offsetDeltaDecode (packReadBuf content offset) p = some (num, p1) →
      num ≤ offset → offset < 2 ^ 63 →
      readObjectBytesHeader indexfiles path content offset =
        .delta (offset - num) p1 0x60 l) := by
  constructor
  · intro buf pos num p1 h hfit
    unfold offsetDeltaDecode at h
    cases hb : buf[pos]? with
    | none => rw [hb] at h; simp at h
    | some b =>
      rw [hb] at h
      dsimp only at h
      obtain ⟨hle, hres⟩ := offsetDeltaLoop_fold buf _ _ _ _ _ h
      have hgd : buf.getD pos 0 = b := by
        rw [List.getD_eq_getElem?_getD, hb]
        rfl
      rw [hgd] at hfit ⊢
      have hspec : specOffsetDeltaNum b
          ((buf.drop (pos + 1)).take (p1 - (pos + 1))) =
          exactFold (b &&& 0x7F)
            ((buf.drop (pos + 1)).take (p1 - (pos + 1))) := rfl
      rw [hspec] at hfit ⊢
      rw [hres]
      exact wrapFold_eq_exactFold _ _
        (lt_of_le_of_lt Nat.and_le_right (by norm_num)) hfit
  · intro indexfiles path content offset l p num p1 hn hot hlen hdec
      hle hoff
    unfold readObjectBytesHeader
    rw [if_neg hn]
    dsimp only
    rw [hlen]
    dsimp only
    rw [hot]
    rw [if_neg (by decide :
      ¬((0x60 : Nat) = ObjectCommit ∨ (0x60 : Nat) = ObjectTree ∨
        (0x60 : Nat) = ObjectBlob ∨ (0x60 : Nat) = ObjectTag))]
    rw [if_pos rfl]
    rw [hdec]
    dsimp only
    have hnum : int64ofPat num = (num : Int) := by
      unfold int64ofPat
      rw [if_pos (by omega : num < 2 ^ 63)]
    rw [hnum]
    have hval : uint64ofInt ((offset : Int) - (num : Int)) = offset - num := by
      unfold uint64ofInt
      have h1 : (0 : Int) ≤ (offset : Int) - (num : Int) := by omega
      have h2 : (offset : Int) - (num : Int) < 2 ^ 64 := by
        have : (offset : Int) < 2 ^ 63 := by exact_mod_cast hoff
        omega
      rw [Int.emod_eq_of_lt h1 h2]
      omega
    rw [hval]

end GitCore

namespace GitCore

/-- A pack with 300 padding bytes and, at offset 300, an OffsetDelta
header byte `0x66` (type bits 0x60, size 6) followed by the offset-delta
varint `0x81 0x05` (`num = ((1 + 1) <<< 7) ||| 5 = 261`). -/
def offsetDeltaPack : List Nat := List.replicate 300 0 ++ [0x66, 0x81, 0x05]

set_option maxRecDepth 10000 in
/-- Witness for C7: the phase resolves the base of the delta at offset 300
at `300 − 261 = 39` within the same pack, with the varint decoded by the
claimed recurrence. -/
theorem offsetDelta_decoding_follows_spec_witness :
    (261 : Nat) ≤ 300 ∧
    readObjectBytesHeader [] "p.pack" offsetDeltaPack 300 =
      .delta 39 3 0x60 6 :=
  ⟨by omega,
   offsetDelta_decoding_follows_spec.2 [] "p.pack" offsetDeltaPack 300 6 1
     261 3 (by decide) rfl rfl rfl (by omega) (by decide)⟩

end GitCore
